import Mathlib

/-
Verification of the configurator package (generic TOML configuration loading
and project discovery).  Go strings are modelled as lists of characters; the
relevant parts of Go's `path/filepath` standard library (Unix rules) are
embedded below, followed by the package's own functions.
-/

set_option linter.unusedVariables false

deriving instance DecidableEq for Except

namespace Configurator

/-- Go strings are modelled as lists of characters. -/
abbrev GoString := List Char

/-- Conversion from Lean string literals to the model's strings. -/
def str (s : String) : GoString := s.data

/-! Model of Go `path/filepath` (Unix separator rules). -/

/-- Split a string on a separator character, keeping empty segments
(the semantics of scanning maximal runs between separators). -/
def splitOnChar (sep : Char) : GoString → List GoString
  | [] => [[]]
  | c :: rest =>
    if c = sep then [] :: splitOnChar sep rest
    else
      match splitOnChar sep rest with
      | [] => [[c]]
      | p :: ps => (c :: p) :: ps

/-- Join path elements with the `/` separator. -/
def joinSlash : List GoString → GoString
  | [] => []
  | [p] => p
  | p :: q :: rest => p ++ '/' :: joinSlash (q :: rest)

/-- The element-processing loop of Go `path.Clean`: `acc` is the output stack
(top first); empty and `.` elements are skipped; `..` pops a poppable element,
is dropped at the root of a rooted path, and is kept for unrooted paths when
nothing can be popped; other elements are pushed.  Returns the stack in path
order. -/
def cleanAux (rooted : Bool) : List GoString → List GoString → List GoString
  | acc, [] => acc.reverse
  | acc, e :: rest =>
    if e = [] ∨ e = ['.'] then cleanAux rooted acc rest
    else if e = ['.', '.'] then
      if rooted then
        match acc with
        | _ :: tl => cleanAux rooted tl rest
        | [] => cleanAux rooted [] rest
      else
        match acc with
        | a :: tl =>
          if a = ['.', '.'] then cleanAux rooted (['.', '.'] :: a :: tl) rest
          else cleanAux rooted tl rest
        | [] => cleanAux rooted [['.', '.']] rest
    else cleanAux rooted (e :: acc) rest

/-- Model of Go `filepath.Clean` (Unix): lexically canonicalize a path.
Empty input yields `.`; a rooted path keeps its leading `/`; an empty
result for an unrooted path yields `.`. -/
def Clean (p : GoString) : GoString :=
  if p = [] then ['.']
  else
    let rooted := p.head? = some '/'
    let stack := cleanAux rooted [] (splitOnChar '/' p)
    if rooted then '/' :: joinSlash stack
    else if stack = [] then ['.']
    else joinSlash stack

/-- Model of Go `filepath.IsAbs` (Unix): the path starts with `/`. -/
def IsAbs (p : GoString) : Bool := ['/'].isPrefixOf p

/-- Model of Go `filepath.Join` for two elements: empty elements are ignored
and the result is cleaned. -/
def Join (a b : GoString) : GoString :=
  if a ≠ [] then Clean (a ++ '/' :: b)
  else if b ≠ [] then Clean b
  else []

/-- Model of Go `filepath.Dir`: drop the final element (the maximal run of
non-separator characters at the end) and clean the remainder. -/
def Dir (p : GoString) : GoString :=
  Clean ((p.reverse.dropWhile (· ≠ '/')).reverse)

/-- The non-empty path elements of a string. -/
def pathElems (p : GoString) : List GoString :=
  (splitOnChar '/' p).filter (· ≠ [])

/-- Drop the longest common prefix of two element lists, returning both
remainders (the lock-step comparison loop of Go `filepath.Rel`). -/
def dropCommon : List GoString → List GoString → List GoString × List GoString
  | [], bs => ([], bs)
  | as, [] => (as, [])
  | a :: as, b :: bs =>
    if a = b then dropCommon as bs else (a :: as, b :: bs)

/-- Model of Go `filepath.Rel` (Unix, no volume names): compute a relative
path from `basepath` to `targpath`, failing when one is rooted and the other
is not, or when an uncancelled `..` remains in the base. -/
def Rel (basepath targpath : GoString) : Except GoString GoString :=
  let base := Clean basepath
  let targ := Clean targpath
  if targ = base then .ok ['.']
  else
    let base := if base = ['.'] then [] else base
    let baseSlashed : Bool := base.head? = some '/'
    let targSlashed : Bool := targ.head? = some '/'
    if baseSlashed ≠ targSlashed then
      .error (str "Rel: cannot make target relative to base")
    else
      let rems := dropCommon (pathElems base) (pathElems targ)
      match rems.1 with
      | [] => .ok (joinSlash rems.2)
      | b1 :: brest =>
        if b1 = ['.', '.'] then
          .error (str "Rel: cannot make target relative to base")
        else
          .ok (joinSlash (List.replicate (brest.length + 1) ['.', '.'] ++ rems.2))

/-! Model of Go error values as produced by this package: sentinel errors,
leaf errors from the operating system, the TOML parser and `filepath.Rel`,
and `fmt.Errorf("...: %w", err)` wrapping. -/

/-- Error values: the package's sentinel errors, leaf errors carrying a
message, and message-wrapping (`fmt.Errorf` with `%w`). -/
inductive GoError where
  | errProjectConfigNotFound
  | errUnexpectedHTTPStatus
  | errPathTraversalAttempt
  | errProjectTomlNotSet
  | osError (msg : GoString)
  | tomlError (msg : GoString)
  | relError (msg : GoString)
  | wrap (ctx : GoString) (inner : GoError)
deriving DecidableEq, Repr

/-- Model of `errors.Is`: an error matches a target when it equals it or
wraps an error that matches it. -/
def errorIs : GoError → GoError → Bool
  | e, target =>
    e = target ||
      match e with
      | .wrap _ inner => errorIs inner target
      | _ => false

/-- The error chain contains an operating-system (I/O) leaf error. -/
def hasOsError : GoError → Bool
  | .osError _ => true
  | .wrap _ inner => hasOsError inner
  | _ => false

/-- The error chain contains a TOML parser leaf error. -/
def hasTomlError : GoError → Bool
  | .tomlError _ => true
  | .wrap _ inner => hasTomlError inner
  | _ => false

/-! Model of the TOML decoder.  The decoder itself is the third-party
`go-toml/v2` library, not part of this repository; it is modelled from the
spec: blank lines and comments are skipped, `[section]` headers set a key
prefix, `key = value` lines assign (strings, integers, booleans), anything
else is a parse error, and an empty document yields no assignments. -/

/-- TOML scalar values in the model. -/
inductive TomlValue where
  | vStr (s : GoString)
  | vInt (n : Int)
  | vBool (b : Bool)
deriving DecidableEq, Repr

/-- The decode target: a flat table of dotted keys to values (the generic
map sink). -/
abbrev TomlTable := List (GoString × TomlValue)

/-- Whitespace characters trimmed around TOML tokens. -/
def isTomlSpace (c : Char) : Bool := c = ' ' ∨ c = '\t' ∨ c = '\r'

/-- Trim surrounding whitespace. -/
def trimSpaces (s : GoString) : GoString :=
  ((s.dropWhile isTomlSpace).reverse.dropWhile isTomlSpace).reverse

/-- Parse a scalar TOML value: a quoted string, `true`/`false`, or an
integer literal. -/
def parseTomlValue (v : GoString) : Option TomlValue :=
  match v with
  | '"' :: rest =>
    match rest.reverse with
    | '"' :: mid => some (.vStr mid.reverse)
    | _ => none
  | _ =>
    if v = str "true" then some (.vBool true)
    else if v = str "false" then some (.vBool false)
    else if v ≠ [] ∧ v.all (·.isDigit) then
      some (.vInt (v.foldl (fun n c => 10 * n + (c.toNat - 48)) (0 : Int)))
    else none

/-- Set a key in the table, replacing an existing binding. -/
def setTomlKey (t : TomlTable) (k : GoString) (v : TomlValue) : TomlTable :=
  match t with
  | [] => [(k, v)]
  | (k', v') :: rest =>
    if k' = k then (k, v) :: rest else (k', v') :: setTomlKey rest k v

/-- Split a line at the first `=` sign, if any. -/
def splitAtEq : GoString → Option (GoString × GoString)
  | [] => none
  | c :: rest =>
    if c = '=' then some ([], rest)
    else match splitAtEq rest with
      | none => none
      | some (k, v) => some (c :: k, v)

/-- Process one TOML line given the current table prefix, returning the new
prefix and table or a parse diagnostic. -/
def tomlLine (pfx : GoString) (t : TomlTable) (line : GoString) :
    Except GoString (GoString × TomlTable) :=
  let l := trimSpaces line
  if l = [] then .ok (pfx, t)
  else if l.head? = some '#' then .ok (pfx, t)
  else match l with
    | '[' :: rest =>
      match rest.reverse with
      | ']' :: mid => .ok (trimSpaces mid.reverse, t)
      | _ => .error (str "unterminated table header")
    | _ =>
      match splitAtEq l with
      | none => .error (str "expected key-value pair")
      | some (k, v) =>
        match parseTomlValue (trimSpaces v) with
        | none => .error (str "invalid value")
        | some tv =>
          let key := if pfx = [] then trimSpaces k else pfx ++ '.' :: trimSpaces k
          .ok (pfx, setTomlKey t key tv)

/-- Process the remaining lines of a TOML document. -/
def tomlLinesAux (pfx : GoString) (t : TomlTable) :
    List GoString → Except GoString TomlTable
  | [] => .ok t
  | line :: rest =>
    match tomlLine pfx t line with
    | .error m => .error m
    | .ok (pfx', t') => tomlLinesAux pfx' t' rest

/-- Modelled from the spec: `toml.Unmarshal` of the third-party go-toml
library (not part of this repository's sources).  Parses the payload line by
line and merges assignments into the caller's target; an empty payload
performs no assignments and is not an error. -/
def tomlUnmarshal (data : GoString) (target : TomlTable) :
    Except GoError TomlTable :=
  match tomlLinesAux [] target (splitOnChar '\n' data) with
  | .error m => .error (.tomlError m)
  | .ok t => .ok t

/-! The configurator package itself.  Ambient effects are passed explicitly:
the outcome of `os.Getwd`, the `os.ReadFile` behaviour, the `os.Stat`
behaviour, the environment, and the HTTP fetch outcome. -/

/-- Name of the project configuration file (`ProjectConfigFile`). -/
def ProjectConfigFile : GoString := str "project.toml"

/-- Model of `unmarshalTOML`: unmarshal TOML data into the target, wrapping
parser failures. -/
def unmarshalTOML (data : GoString) (target : TomlTable) :
    Except GoError TomlTable :=
  match tomlUnmarshal data target with
  | .error e => .error (.wrap (str "parse toml") e)
  | .ok t => .ok t

/-- Model of `getCleanPath`: an absolute path is returned cleaned without
consulting the working directory; a relative path is joined onto the working
directory, cleaned, and rejected with the path-traversal sentinel when the
path relative to the working directory begins with `..`.  `wdRes` is the
outcome of `os.Getwd`. -/
def getCleanPath (wdRes : Except GoString GoString) (path : GoString) :
    Except GoError GoString :=
  if IsAbs path then .ok (Clean path)
  else
    match wdRes with
    | .error m => .error (.wrap (str "get working directory") (.osError m))
    | .ok workingDir =>
      let absPath := Join workingDir path
      let cleanedPath := Clean absPath
      match Rel workingDir cleanedPath with
      | .error m =>
        .error (.wrap (str "could not compute relative path") (.relError m))
      | .ok rel =>
        if (str "..").isPrefixOf rel then
          .error (.wrap (str "path " ++ path) .errPathTraversalAttempt)
        else .ok cleanedPath

/-- Model of `LoadInto`: clean the path, read the file (`readFile` is the
`os.ReadFile` behaviour), and unmarshal, wrapping each failure with its
operation. -/
def LoadInto (wdRes : Except GoString GoString)
    (readFile : GoString → Except GoString GoString)
    (path : GoString) (target : TomlTable) : Except GoError TomlTable :=
  match getCleanPath wdRes path with
  | .error e => .error (.wrap (str "get clean path") e)
  | .ok cleanPath =>
    match readFile cleanPath with
    | .error m => .error (.wrap (str "read config file") (.osError m))
    | .ok data => unmarshalTOML data target

/-- Model of `fileExists`: a file exists exactly when `os.Stat` succeeds,
whatever the failure reason. -/
def fileExists (stat : GoString → Except GoString Unit) (path : GoString) :
    Bool :=
  match stat path with
  | .ok _ => true
  | .error _ => false

/-- Model of `FindProjectRoot` as a fuel-indexed iteration of the upward
search loop: check `current/project.toml`, return on the first hit, fail
with the not-found sentinel when the parent equals the current directory,
otherwise continue at the parent.  `none` means the fuel was exhausted
before the loop exited. -/
def FindProjectRoot (stat : GoString → Except GoString Unit) :
    Nat → GoString → Option (Except GoError (GoString × GoString))
  | 0, _ => none
  | fuel + 1, current =>
    let candidate := Join current ProjectConfigFile
    if fileExists stat candidate then some (.ok (current, candidate))
    else
      let parent := Dir current
      if parent = current then some (.error .errProjectConfigNotFound)
      else FindProjectRoot stat fuel parent

/-- The chain of directories the upward search visits, from the start
directory to the filesystem root (the directory whose parent is itself),
truncated by the fuel. -/
def upChain : Nat → GoString → List GoString
  | 0, _ => []
  | fuel + 1, current =>
    current :: (if Dir current = current then [] else upChain fuel (Dir current))

/-- Model of `LoadFromProject`: find the project root, then load the marker
file; on either failure the empty string is returned as the root together
with the wrapped error. -/
def LoadFromProject (stat : GoString → Except GoString Unit)
    (wdRes : Except GoString GoString)
    (readFile : GoString → Except GoString GoString)
    (fuel : Nat) (startDir : GoString) (target : TomlTable) :
    Option (GoString × Except GoError TomlTable) :=
  match FindProjectRoot stat fuel startDir with
  | none => none
  | some (.error e) => some ([], .error (.wrap (str "find project root") e))
  | some (.ok (projectRoot, configPath)) =>
    match LoadInto wdRes readFile configPath target with
    | .error e => some ([], .error (.wrap (str "load config") e))
    | .ok t => some (projectRoot, .ok t)

/-- Model of an HTTP response as seen by `processResponse`: the numeric
status code, the status line, and the outcome that reading the body to
completion would produce. -/
structure HttpResponse where
  statusCode : Nat
  status : GoString
  body : Except GoString GoString
deriving Repr

/-- Model of `processResponse`: any status other than 200 fails with the
unexpected-status sentinel carrying the observed status; on 200 the body is
read and returned. -/
def processResponse (resp : HttpResponse) : Except GoError GoString :=
  if resp.statusCode ≠ 200 then
    .error (.wrap resp.status .errUnexpectedHTTPStatus)
  else
    match resp.body with
    | .error m => .error (.wrap (str "read response body") (.osError m))
    | .ok data => .ok data

/-- Model of `os.Getenv`: an unset variable reads as the empty string. -/
def osGetenv (env : GoString → Option GoString) (name : GoString) : GoString :=
  (env name).getD []

/-- Model of `Load`: read the `PROJECT_TOML` environment variable; fail with
the source-unset sentinel when it reads empty; otherwise fetch the URL and
unmarshal.  The second component records the URLs actually fetched, so that
absence of a network call is visible in the result. -/
def Load (env : GoString → Option GoString)
    (fetch : GoString → Except GoError GoString)
    (target : TomlTable) : Except GoError TomlTable × List GoString :=
  let projectTOMLURL := osGetenv env (str "PROJECT_TOML")
  if projectTOMLURL = [] then (.error .errProjectTomlNotSet, [])
  else
    match fetch projectTOMLURL with
    | .error e =>
      (.error (.wrap (str "failed to fetch TOML from " ++ projectTOMLURL) e),
        [projectTOMLURL])
    | .ok content =>
      match unmarshalTOML content target with
      | .error e =>
        (.error (.wrap (str "failed to unmarshal TOML") e), [projectTOMLURL])
      | .ok t => (.ok t, [projectTOMLURL])

/-- The canonicalized form of a relative input falls inside the working
directory: the elements of the cleaned working directory are a prefix of the
elements of the canonicalized path. -/
def fallsInsideWorkingDir (wd q : GoString) : Bool :=
  (pathElems (Clean wd)).isPrefixOf (pathElems q)

/-- A path element of a cleaned path body: non-empty, not a dot element, not
an up element, and separator-free. -/
def goodElem (e : GoString) : Prop :=
  e ≠ [] ∧ e ≠ ['.'] ∧ e ≠ ['.', '.'] ∧ '/' ∉ e

/-! Shared concrete fixtures for witnesses and counterexamples. -/

/-- A stat behaviour with the marker only in `/a`. -/
def statMarkerAtA : GoString → Except GoString Unit := fun p =>
  if p = str "/a/project.toml" then .ok () else .error (str "no such file")

/-- A read behaviour that always fails with a permission error. -/
def readAlwaysDenied : GoString → Except GoString GoString := fun _ =>
  .error (str "permission denied")

end Configurator

namespace Configurator

/-- Splitting never yields an empty list of segments. -/
theorem splitOnChar_ne_nil (sep : Char) (cs : GoString) :
    splitOnChar sep cs ≠ [] := by
  induction cs with
  | nil => simp [splitOnChar]
  | cons c rest ih =>
    by_cases hc : c = sep
    · simp [splitOnChar, hc]
    · simp only [splitOnChar, if_neg hc]
      cases hx : splitOnChar sep rest <;> simp

/-- No segment produced by splitting contains the separator. -/
theorem splitOnChar_no_sep (sep : Char) (cs : GoString) :
    ∀ p ∈ splitOnChar sep cs, sep ∉ p := by
  induction cs with
  | nil =>
    intro p hp
    simp [splitOnChar] at hp
    simp [hp]
  | cons c rest ih =>
    intro p hp
    by_cases hc : c = sep
    · simp only [splitOnChar, if_pos hc] at hp
      rcases List.mem_cons.mp hp with h | h
      · simp [h]
      · exact ih p h
    · simp only [splitOnChar, if_neg hc] at hp
      cases hx : splitOnChar sep rest with
      | nil => exact absurd hx (splitOnChar_ne_nil sep rest)
      | cons q qs =>
        rw [hx] at hp
        rcases List.mem_cons.mp hp with h | h
        · subst h
          intro hmem
          rcases List.mem_cons.mp hmem with h1 | h1
          · exact hc h1.symm
          · exact ih q (by rw [hx]; exact List.mem_cons_self _ _) h1
        · exact ih p (by rw [hx]; exact List.mem_cons_of_mem _ h)

/-- Splitting after prepending a separator-free run extends the first
segment. -/
theorem splitOnChar_append_no_sep (sep : Char) (e t p : GoString)
    (ps : List GoString) :
    sep ∉ e → splitOnChar sep t = p :: ps →
    splitOnChar sep (e ++ t) = (e ++ p) :: ps := by
  induction e with
  | nil => intro _ ht; simpa using ht
  | cons c cs ih =>
    intro he ht
    have hc : ¬ (c = sep) := fun h => he (by simp [h])
    simp only [List.cons_append, splitOnChar, if_neg hc, List.append_eq]
    rw [ih (fun h => he (List.mem_cons_of_mem _ h)) ht]

/-- A separator-free string splits into the single segment it is. -/
theorem splitOnChar_single (sep : Char) (e : GoString) (he : sep ∉ e) :
    splitOnChar sep e = [e] := by
  have h := splitOnChar_append_no_sep sep e [] [] [] he rfl
  simpa using h

/-- Splitting undoes joining for separator-free elements. -/
theorem split_join (es : List GoString) (hne : es ≠ [])
    (hfree : ∀ e ∈ es, '/' ∉ e) :
    splitOnChar '/' (joinSlash es) = es := by
  induction es with
  | nil => exact absurd rfl hne
  | cons e rest ih =>
    cases rest with
    | nil =>
      simpa [joinSlash] using
        splitOnChar_single '/' e (hfree e (List.mem_cons_self _ _))
    | cons f rest' =>
      have ihr := ih (by simp)
        (fun x hx => hfree x (List.mem_cons_of_mem _ hx))
      have hsplit : splitOnChar '/' ('/' :: joinSlash (f :: rest')) =
          [] :: (f :: rest') := by
        simp [splitOnChar, ihr]
      have h := splitOnChar_append_no_sep '/' e ('/' :: joinSlash (f :: rest'))
        [] (f :: rest') (hfree e (List.mem_cons_self _ _)) hsplit
      simpa [joinSlash] using h

/-- Joining a non-empty element list starts with its first element. -/
theorem joinSlash_cons_exists (e : GoString) (rest : List GoString) :
    ∃ t, joinSlash (e :: rest) = e ++ t := by
  cases rest with
  | nil => exact ⟨[], by simp [joinSlash]⟩
  | cons f rest' => exact ⟨'/' :: joinSlash (f :: rest'), rfl⟩

/-- Step lemma: empty and dot elements are skipped. -/
theorem cleanAux_cons_skip (rooted : Bool) (acc : List GoString)
    (e : GoString) (rest : List GoString) (h : e = [] ∨ e = ['.']) :
    cleanAux rooted acc (e :: rest) = cleanAux rooted acc rest := by
  simp only [cleanAux, if_pos h]

/-- Step lemma: an up element on a rooted path pops the stack when it can. -/
theorem cleanAux_cons_up_rooted (acc : List GoString)
    (rest : List GoString) :
    cleanAux true acc (['.', '.'] :: rest) =
      match acc with
      | _ :: tl => cleanAux true tl rest
      | [] => cleanAux true [] rest := by
  cases acc with
  | nil => simp [cleanAux]
  | cons a tl => simp [cleanAux]

/-- Step lemma: an up element on an unrooted path pops a poppable element
and otherwise accumulates. -/
theorem cleanAux_cons_up_unrooted (acc : List GoString)
    (rest : List GoString) :
    cleanAux false acc (['.', '.'] :: rest) =
      match acc with
      | a :: tl =>
        if a = ['.', '.'] then cleanAux false (['.', '.'] :: a :: tl) rest
        else cleanAux false tl rest
      | [] => cleanAux false [['.', '.']] rest := by
  cases acc with
  | nil => simp [cleanAux]
  | cons a tl => by_cases h : a = ['.', '.'] <;> simp [cleanAux, h]

/-- Step lemma: a normal element is pushed. -/
theorem cleanAux_cons_push (rooted : Bool) (acc : List GoString)
    (e : GoString) (rest : List GoString)
    (h1 : ¬(e = [] ∨ e = ['.'])) (h2 : e ≠ ['.', '.']) :
    cleanAux rooted acc (e :: rest) = cleanAux rooted (e :: acc) rest := by
  simp only [cleanAux, if_neg h1, if_neg h2]

/-- Elements that are neither empty, dot, nor up are pushed one after the
other. -/
theorem cleanAux_push_all (rooted : Bool) (acc : List GoString)
    (ps : List GoString)
    (h : ∀ e ∈ ps, e ≠ [] ∧ e ≠ ['.'] ∧ e ≠ ['.', '.']) :
    cleanAux rooted acc ps = acc.reverse ++ ps := by
  induction ps generalizing acc with
  | nil => simp [cleanAux]
  | cons e rest ih =>
    obtain ⟨h1, h2, h3⟩ := h e (List.mem_cons_self _ _)
    simp only [cleanAux]
    rw [if_neg (by simp [h1, h2]), if_neg h3,
      ih (e :: acc) (fun x hx => h x (List.mem_cons_of_mem _ hx))]
    simp

/-- Leading up elements of an unrooted input pile up on a stack of up
elements. -/
theorem cleanAux_dotdots (j k : Nat) (ps : List GoString) :
    cleanAux false (List.replicate j ['.', '.'])
        (List.replicate k ['.', '.'] ++ ps) =
      cleanAux false (List.replicate (j + k) ['.', '.']) ps := by
  induction k generalizing j with
  | zero => simp
  | succ k ih =>
    rw [List.replicate_succ, List.cons_append, cleanAux_cons_up_unrooted]
    cases j with
    | zero =>
      show cleanAux false [['.', '.']] (List.replicate k ['.', '.'] ++ ps) = _
      have h1 := ih 1
      rw [List.replicate_one] at h1
      rw [h1, show (1 + k) = 0 + (k + 1) from by omega]
    | succ j' =>
      rw [List.replicate_succ]
      show (if (['.', '.'] : GoString) = ['.', '.'] then
        cleanAux false (['.', '.'] :: ['.', '.'] :: List.replicate j' ['.', '.'])
          (List.replicate k ['.', '.'] ++ ps)
        else cleanAux false (List.replicate j' ['.', '.'])
          (List.replicate k ['.', '.'] ++ ps)) = _
      rw [if_pos rfl,
        show (['.', '.'] :: ['.', '.'] :: List.replicate j' ['.', '.']) =
          List.replicate (j' + 2) ['.', '.'] from by simp [List.replicate_succ],
        ih (j' + 2), show j' + 2 + k = j' + 1 + (k + 1) from by omega]

/-- For a rooted path every element left on the stack is good. -/
theorem cleanAux_shape_rooted (ps : List GoString) (acc : List GoString)
    (hacc : ∀ e ∈ acc, goodElem e) (hps : ∀ p ∈ ps, '/' ∉ p) :
    ∀ e ∈ cleanAux true acc ps, goodElem e := by
  induction ps generalizing acc with
  | nil =>
    intro e he
    simp only [cleanAux] at he
    exact hacc e (List.mem_reverse.mp he)
  | cons p rest ih =>
    have hps' : ∀ x ∈ rest, '/' ∉ x :=
      fun x hx => hps x (List.mem_cons_of_mem _ hx)
    simp only [cleanAux]
    by_cases h1 : p = [] ∨ p = ['.']
    · rw [if_pos h1]; exact ih acc hacc hps'
    · rw [if_neg h1]
      by_cases h2 : p = ['.', '.']
      · rw [if_pos h2]
        simp only [if_true]
        cases acc with
        | nil => exact ih [] (by simp) hps'
        | cons a tl =>
          exact ih tl (fun x hx => hacc x (List.mem_cons_of_mem _ hx)) hps'
      · rw [if_neg h2]
        refine ih (p :: acc) ?_ hps'
        intro x hx
        rcases List.mem_cons.mp hx with h | h
        · subst h
          push_neg at h1
          exact ⟨h1.1, h1.2, h2, hps x (List.mem_cons_self _ _)⟩
        · exact hacc x h

/-- For an unrooted path the stack is a run of up elements followed by good
elements (stated on the reversed accumulator). -/
theorem cleanAux_shape_unrooted (ps : List GoString) (ns : List GoString)
    (k : Nat) (hns : ∀ e ∈ ns, goodElem e) (hps : ∀ p ∈ ps, '/' ∉ p) :
    ∃ k' ns',
      cleanAux false (ns ++ List.replicate k ['.', '.']) ps =
        List.replicate k' ['.', '.'] ++ ns' ∧ ∀ e ∈ ns', goodElem e := by
  induction ps generalizing ns k with
  | nil =>
    refine ⟨k, ns.reverse, ?_, fun e he => hns e (List.mem_reverse.mp he)⟩
    simp [cleanAux, List.reverse_append, List.reverse_replicate]
  | cons p rest ih =>
    have hps' : ∀ x ∈ rest, '/' ∉ x :=
      fun x hx => hps x (List.mem_cons_of_mem _ hx)
    by_cases h1 : p = [] ∨ p = ['.']
    · rw [cleanAux_cons_skip _ _ _ _ h1]; exact ih ns k hns hps'
    · by_cases h2 : p = ['.', '.']
      · subst h2
        rw [cleanAux_cons_up_unrooted]
        cases ns with
        | nil =>
          cases k with
          | zero =>
            have h := ih [] 1 (by simp) hps'
            rw [List.nil_append, List.replicate_one] at h
            exact h
          | succ k0 =>
            rw [List.nil_append, List.replicate_succ]
            show ∃ k' ns',
              (if (['.', '.'] : GoString) = ['.', '.'] then
                cleanAux false
                  (['.', '.'] :: ['.', '.'] :: List.replicate k0 ['.', '.']) rest
                else cleanAux false (List.replicate k0 ['.', '.']) rest) =
                List.replicate k' ['.', '.'] ++ ns' ∧ ∀ e ∈ ns', goodElem e
            rw [if_pos rfl,
              show (['.', '.'] :: ['.', '.'] :: List.replicate k0 ['.', '.']) =
                List.replicate (k0 + 2) ['.', '.'] from by
                  simp [List.replicate_succ]]
            have h := ih [] (k0 + 2) (by simp) hps'
            rw [List.nil_append] at h
            exact h
        | cons n0 ns2 =>
          have hn0 : goodElem n0 := hns n0 (List.mem_cons_self _ _)
          rw [List.cons_append]
          show ∃ k' ns',
            (if n0 = ['.', '.'] then
              cleanAux false
                (['.', '.'] :: n0 :: (ns2 ++ List.replicate k ['.', '.'])) rest
              else cleanAux false (ns2 ++ List.replicate k ['.', '.']) rest) =
              List.replicate k' ['.', '.'] ++ ns' ∧ ∀ e ∈ ns', goodElem e
          rw [if_neg hn0.2.2.1]
          exact ih ns2 k
            (fun x hx => hns x (List.mem_cons_of_mem _ hx)) hps'
      · rw [cleanAux_cons_push _ _ _ _ h1 h2]
        have hgood : goodElem p := by
          push_neg at h1
          exact ⟨h1.1, h1.2, h2, hps p (List.mem_cons_self _ _)⟩
        have h := ih (p :: ns) k
          (fun x hx => by
            rcases List.mem_cons.mp hx with h | h
            · subst h; exact hgood
            · exact hns x h)
          hps'
        rw [List.cons_append] at h
        exact h

/-- A cleaned rooted path is the separator followed by the joined element
stack, whose elements are all good. -/
theorem Clean_rooted_shape (p : GoString) (hne : p ≠ [])
    (hh : p.head? = some '/') :
    Clean p = '/' :: joinSlash (cleanAux true [] (splitOnChar '/' p)) ∧
    ∀ e ∈ cleanAux true [] (splitOnChar '/' p), goodElem e := by
  constructor
  · simp [Clean, hne, hh]
  · exact cleanAux_shape_rooted _ [] (by simp) (splitOnChar_no_sep '/' p)

/-- A cleaned unrooted path is either the dot path or the join of a run of
up elements followed by good elements. -/
theorem Clean_unrooted_shape (p : GoString) (hne : p ≠ [])
    (hh : ¬(p.head? = some '/')) :
    Clean p = ['.'] ∨
    ∃ k ns, Clean p = joinSlash (List.replicate k ['.', '.'] ++ ns) ∧
      (∀ e ∈ ns, goodElem e) ∧
      List.replicate k ['.', '.'] ++ ns ≠ [] := by
  obtain ⟨k, ns, hstack, hns⟩ := cleanAux_shape_unrooted (splitOnChar '/' p)
    [] 0 (by simp) (splitOnChar_no_sep '/' p)
  rw [List.nil_append, List.replicate_zero] at hstack
  by_cases hempty : cleanAux false [] (splitOnChar '/' p) = []
  · left; simp [Clean, hne, hh, hempty]
  · right
    refine ⟨k, ns, ?_, hns, by rw [← hstack]; exact hempty⟩
    rw [← hstack]
    simp [Clean, hne, hh, hempty]

/-- Cleaning a rooted path keeps the leading separator. -/
theorem Clean_head_slash (p : GoString) (hne : p ≠ [])
    (hh : p.head? = some '/') :
    (Clean p).head? = some '/' ∧ Clean p ≠ [] := by
  rw [(Clean_rooted_shape p hne hh).1]
  exact ⟨rfl, by simp⟩

/-- Cleaning is idempotent. -/
theorem Clean_idem (p : GoString) : Clean (Clean p) = Clean p := by
  by_cases hne : p = []
  · subst hne; decide
  by_cases hh : p.head? = some '/'
  · obtain ⟨h1, hgood⟩ := Clean_rooted_shape p hne hh
    rw [h1]
    cases hS : cleanAux true [] (splitOnChar '/' p) with
    | nil => decide
    | cons s0 srest =>
      rw [hS] at hgood
      have hfree : ∀ e ∈ s0 :: srest, '/' ∉ e :=
        fun e he => (hgood e he).2.2.2
      have hsj : splitOnChar '/' (joinSlash (s0 :: srest)) = s0 :: srest :=
        split_join _ (by simp) hfree
      have hsplit : splitOnChar '/' ('/' :: joinSlash (s0 :: srest)) =
          [] :: (s0 :: srest) := by
        simp [splitOnChar, hsj]
      have haux : cleanAux true [] ([] :: (s0 :: srest)) = s0 :: srest := by
        rw [cleanAux_cons_skip true [] [] _ (Or.inl rfl),
          cleanAux_push_all true [] _ (fun e he =>
            ⟨(hgood e he).1, (hgood e he).2.1, (hgood e he).2.2.1⟩)]
        simp
      have hne2 : ('/' :: joinSlash (s0 :: srest)) ≠ ([] : GoString) := by simp
      simp [Clean, hne2, hsplit, haux]
  · rcases Clean_unrooted_shape p hne hh with h | ⟨k, ns, hq, hns, hLne⟩
    · rw [h]; decide
    · rw [hq]
      have hfreeL : ∀ e ∈ List.replicate k ['.', '.'] ++ ns, '/' ∉ e := by
        intro e he
        rcases List.mem_append.mp he with h | h
        · rw [List.eq_of_mem_replicate h]; decide
        · exact (hns e h).2.2.2
      have hsj : splitOnChar '/'
          (joinSlash (List.replicate k ['.', '.'] ++ ns)) =
          List.replicate k ['.', '.'] ++ ns :=
        split_join _ hLne hfreeL
      obtain ⟨e0, L2, hL⟩ :
          ∃ e0 L2, List.replicate k ['.', '.'] ++ ns = e0 :: L2 := by
        cases hL2 : List.replicate k ['.', '.'] ++ ns with
        | nil => exact absurd hL2 hLne
        | cons a b => exact ⟨a, b, rfl⟩
      · have he0mem : e0 ∈ List.replicate k ['.', '.'] ++ ns := by
          rw [hL]; exact List.mem_cons_self _ _
        have he0ne : e0 ≠ [] := by
          rcases List.mem_append.mp he0mem with h | h
          · rw [List.eq_of_mem_replicate h]; decide
          · exact (hns _ h).1
        have he0free : '/' ∉ e0 := hfreeL e0 he0mem
        obtain ⟨c0, e0t, he0'⟩ : ∃ c t, e0 = c :: t := by
          cases e0 with
          | nil => exact absurd rfl he0ne
          | cons c t => exact ⟨c, t, rfl⟩
        obtain ⟨t, ht⟩ := joinSlash_cons_exists e0 L2
        have hqform : joinSlash (List.replicate k ['.', '.'] ++ ns) =
            c0 :: (e0t ++ t) := by rw [hL, ht, he0']; rfl
        have hc0 : c0 ≠ '/' := by
          intro hcontra
          exact he0free (by rw [he0', hcontra]; exact List.mem_cons_self _ _)
        have hqne : joinSlash (List.replicate k ['.', '.'] ++ ns) ≠ [] := by
          rw [hqform]; simp
        have hqh : ¬((joinSlash (List.replicate k ['.', '.'] ++ ns)).head? =
            some '/') := by
          rw [hqform]
          simp only [List.head?_cons, Option.some.injEq]
          exact fun h => hc0 h
        have haux : cleanAux false [] (List.replicate k ['.', '.'] ++ ns) =
            List.replicate k ['.', '.'] ++ ns := by
          have h1 := cleanAux_dotdots 0 k ns
          rw [List.replicate_zero] at h1
          rw [h1, Nat.zero_add,
            cleanAux_push_all false _ ns (fun e he =>
              ⟨(hns e he).1, (hns e he).2.1, (hns e he).2.2.1⟩),
            List.reverse_replicate]
        simp [Clean, hqne, hqh, hsj, haux, hLne]

/-- The non-empty path elements of a cleaned rooted path are exactly its
element stack. -/
theorem pathElems_Clean_rooted (p : GoString) (hne : p ≠ [])
    (hh : p.head? = some '/') :
    pathElems (Clean p) = cleanAux true [] (splitOnChar '/' p) := by
  obtain ⟨h1, hgood⟩ := Clean_rooted_shape p hne hh
  rw [h1]
  cases hS : cleanAux true [] (splitOnChar '/' p) with
  | nil => decide
  | cons s0 srest =>
    rw [hS] at hgood
    have hfree : ∀ e ∈ s0 :: srest, '/' ∉ e :=
      fun e he => (hgood e he).2.2.2
    have hsj : splitOnChar '/' (joinSlash (s0 :: srest)) = s0 :: srest :=
      split_join _ (by simp) hfree
    unfold pathElems
    rw [show splitOnChar '/' ('/' :: joinSlash (s0 :: srest)) =
      [] :: (s0 :: srest) from by simp [splitOnChar, hsj]]
    rw [List.filter_cons]
    simp only [decide_not, if_neg]
    rw [List.filter_eq_self.mpr]
    · simp
    · intro a ha
      simpa using (hgood a ha).1

/-- The base remainder of the lock-step comparison: empty exactly when the
base elements are a prefix of the target elements, and always drawn from
the base elements. -/
theorem dropCommon_spec (as : List GoString) : ∀ bs : List GoString,
    ((dropCommon as bs).1 = [] → as.isPrefixOf bs = true) ∧
    (∀ x ∈ (dropCommon as bs).1, x ∈ as) := by
  induction as with
  | nil =>
    intro bs
    constructor
    · intro _; simp [List.isPrefixOf]
    · intro x hx; simp [dropCommon] at hx
  | cons a as ih =>
    intro bs
    cases bs with
    | nil =>
      constructor
      · intro h; simp [dropCommon] at h
      · intro x hx; simpa [dropCommon] using hx
    | cons b bs2 =>
      by_cases hab : a = b
      · constructor
        · intro h
          have hpre := (ih bs2).1 (by simpa [dropCommon, hab] using h)
          simp [List.isPrefixOf, hab, hpre]
        · intro x hx
          have hx' : x ∈ (dropCommon as bs2).1 := by
            simpa [dropCommon, hab] using hx
          exact List.mem_cons_of_mem _ ((ih bs2).2 x hx')
      · constructor
        · intro h; simp [dropCommon, hab] at h
        · intro x hx; simpa [dropCommon, hab] using hx

/-- When the target does not lie inside the base directory, `Rel` from a
rooted base to a cleaned rooted target succeeds with a path that begins
with an up element. -/
theorem Rel_up_of_outside (wd q : GoString)
    (hwdne : wd ≠ []) (hwdh : wd.head? = some '/')
    (hq : Clean q = q) (hqh : q.head? = some '/')
    (hout : (pathElems (Clean wd)).isPrefixOf (pathElems q) = false) :
    ∃ r, Rel wd q = .ok r ∧ (str "..").isPrefixOf r = true := by
  have hshape := Clean_rooted_shape wd hwdne hwdh
  have hbe := pathElems_Clean_rooted wd hwdne hwdh
  have hCwdh := Clean_head_slash wd hwdne hwdh
  have htne : ¬(q = Clean wd) := by
    intro h
    rw [h] at hout
    have hrefl : (pathElems (Clean wd)).isPrefixOf (pathElems (Clean wd)) =
        true := List.isPrefixOf_iff_prefix.mpr (List.prefix_refl _)
    rw [hrefl] at hout; cases hout
  have hbdot : ¬(Clean wd = ['.']) := by
    intro h
    have h2 := hCwdh.1
    rw [h] at h2
    exact (by decide : ¬((['.'] : GoString).head? = some '/')) h2
  have hstep : Rel wd q =
      (match (dropCommon (pathElems (Clean wd)) (pathElems q)).1 with
       | [] =>
        .ok (joinSlash (dropCommon (pathElems (Clean wd)) (pathElems q)).2)
       | b1 :: brest =>
         if b1 = ['.', '.'] then
          .error (str "Rel: cannot make target relative to base")
         else
          .ok (joinSlash (List.replicate (brest.length + 1) ['.', '.'] ++
            (dropCommon (pathElems (Clean wd)) (pathElems q)).2))) := by
    simp [Rel, hq, htne, hbdot, hCwdh.1, hqh]
  cases hfst : (dropCommon (pathElems (Clean wd)) (pathElems q)).1 with
  | nil =>
    exfalso
    have h := (dropCommon_spec (pathElems (Clean wd)) (pathElems q)).1 hfst
    rw [h] at hout; cases hout
  | cons b1 brest =>
    have hb1mem : b1 ∈ pathElems (Clean wd) :=
      (dropCommon_spec (pathElems (Clean wd)) (pathElems q)).2 b1
        (by rw [hfst]; exact List.mem_cons_self _ _)
    have hb1 : b1 ≠ ['.', '.'] := by
      rw [hbe] at hb1mem
      exact (hshape.2 b1 hb1mem).2.2.1
    refine ⟨joinSlash (List.replicate (brest.length + 1) ['.', '.'] ++
      (dropCommon (pathElems (Clean wd)) (pathElems q)).2), ?_, ?_⟩
    · rw [hstep, hfst]
      simp [hb1]
    · rw [show List.replicate (brest.length + 1) ['.', '.'] ++
          (dropCommon (pathElems (Clean wd)) (pathElems q)).2 =
          ['.', '.'] :: (List.replicate brest.length ['.', '.'] ++
            (dropCommon (pathElems (Clean wd)) (pathElems q)).2) from by
        rw [List.replicate_succ]; rfl]
      obtain ⟨t, ht⟩ := joinSlash_cons_exists ['.', '.']
        (List.replicate brest.length ['.', '.'] ++
          (dropCommon (pathElems (Clean wd)) (pathElems q)).2)
      rw [ht]
      exact List.isPrefixOf_iff_prefix.mpr (List.prefix_append _ _)

/-- An absolute path is non-empty and starts with the separator. -/
theorem IsAbs_true_elim (p : GoString) (h : IsAbs p = true) :
    p ≠ [] ∧ p.head? = some '/' := by
  cases p with
  | nil => cases h
  | cons c t =>
    have hc : '/' = c := by simpa [IsAbs, List.isPrefixOf] using h
    exact ⟨by simp, by rw [← hc]; rfl⟩

/-- C1: a relative input whose canonicalization against the working
directory does not fall inside that working directory makes `getCleanPath`
fail with the path-traversal sentinel — the escaping path is never
returned.  The check happens after joining onto the working directory,
cleaning, and computing the path relative to the working directory. -/
theorem getCleanPath_rejects_escaping_relative (wd p : GoString)
    (hwd : IsAbs wd = true) (hp : IsAbs p = false)
    (hout : fallsInsideWorkingDir wd (Clean (Join wd p)) = false) :
    getCleanPath (.ok wd) p =
      .error (.wrap (str "path " ++ p) .errPathTraversalAttempt) := by
  obtain ⟨hwdne, hwdh⟩ := IsAbs_true_elim wd hwd
  have hJoin : Join wd p = Clean (wd ++ '/' :: p) := by
    simp [Join, hwdne]
  have happ_ne : wd ++ '/' :: p ≠ [] := by simp
  have happ_h : (wd ++ '/' :: p).head? = some '/' := by
    cases wd with
    | nil => exact absurd rfl hwdne
    | cons c t =>
      have hc : c = '/' := Option.some.inj hwdh
      subst hc
      rfl
  have hJ : (Join wd p).head? = some '/' ∧ Join wd p ≠ [] := by
    rw [hJoin]; exact Clean_head_slash _ happ_ne happ_h
  have hq : (Clean (Join wd p)).head? = some '/' ∧ Clean (Join wd p) ≠ [] :=
    Clean_head_slash _ hJ.2 hJ.1
  obtain ⟨r, hr, hpre⟩ := Rel_up_of_outside wd (Clean (Join wd p)) hwdne hwdh
    (Clean_idem _) hq.1 hout
  have h0 : getCleanPath (.ok wd) p =
      (match Rel wd (Clean (Join wd p)) with
       | .error m =>
        .error (.wrap (str "could not compute relative path") (.relError m))
       | .ok rel =>
        if (str "..").isPrefixOf rel then
          .error (.wrap (str "path " ++ p) .errPathTraversalAttempt)
        else .ok (Clean (Join wd p))) := by
    simp only [getCleanPath, hp, Bool.false_eq_true, if_false]
  rw [h0, hr]
  simp [hpre]

/-- Witness for C1: working directory `/home/user`, relative input
`../../etc/passwd`, which canonicalizes to `/etc/passwd`, outside the
working directory. -/
theorem getCleanPath_rejects_escaping_relative_witness :
    IsAbs (str "/home/user") = true ∧
    IsAbs (str "../../etc/passwd") = false ∧
    fallsInsideWorkingDir (str "/home/user")
      (Clean (Join (str "/home/user") (str "../../etc/passwd"))) = false ∧
    getCleanPath (.ok (str "/home/user")) (str "../../etc/passwd") =
      .error (.wrap (str "path " ++ str "../../etc/passwd")
        .errPathTraversalAttempt) :=
  ⟨by decide, by decide, by decide,
    getCleanPath_rejects_escaping_relative (str "/home/user")
      (str "../../etc/passwd") (by decide) (by decide) (by decide)⟩

/-- C3: decoding the empty payload succeeds for every target and leaves it
unchanged (hence at its zero value); empty input is never an error. -/
theorem unmarshalTOML_empty_ok : ∀ target : TomlTable,
    unmarshalTOML (str "") target = .ok target := fun _ => rfl

/-- C4: `processResponse` fails with the unexpected-status sentinel carrying
the observed status whenever the status code is not 200, and returns the
body bytes when the status code is 200. -/
theorem processResponse_status_contract (resp : HttpResponse) :
    (resp.statusCode ≠ 200 →
      processResponse resp = .error (.wrap resp.status .errUnexpectedHTTPStatus)) ∧
    (∀ bs, resp.statusCode = 200 → resp.body = .ok bs →
      processResponse resp = .ok bs) := by
  constructor
  · intro h
    simp [processResponse, h]
  · intro bs h hb
    simp [processResponse, h, hb]

/-- Witness for C4 at a 404 response and a 200 response. -/
theorem processResponse_status_contract_witness :
    processResponse ⟨404, str "404 Not Found", .ok (str "b")⟩ =
      .error (.wrap (str "404 Not Found") .errUnexpectedHTTPStatus) ∧
    processResponse ⟨200, str "200 OK", .ok (str "b")⟩ = .ok (str "b") :=
  ⟨(processResponse_status_contract ⟨404, str "404 Not Found", .ok (str "b")⟩).1
      (by decide),
    (processResponse_status_contract ⟨200, str "200 OK", .ok (str "b")⟩).2
      (str "b") rfl rfl⟩

/-- C5: when the `PROJECT_TOML` environment variable is not set, `Load`
fails with the distinct source-unset sentinel and fetches no URL. -/
theorem Load_unset_env_sourceUnset (env : GoString → Option GoString)
    (fetch : GoString → Except GoError GoString) (target : TomlTable)
    (h : env (str "PROJECT_TOML") = none) :
    Load env fetch target = (.error .errProjectTomlNotSet, []) := by
  simp [Load, osGetenv, h]

/-- Witness for C5 with an unset environment. -/
theorem Load_unset_env_sourceUnset_witness :
    Load (fun _ => none) (fun _ => .ok (str "")) [] =
      (.error .errProjectTomlNotSet, []) :=
  Load_unset_env_sourceUnset (fun _ => none) (fun _ => .ok (str "")) [] rfl

/-- C10: `PROJECT_TOML` set to the empty string behaves exactly like the
variable being unset: the same source-unset failure, no fetch, and the same
result as under any environment where the variable is unset. -/
theorem Load_empty_env_like_unset (env unsetEnv : GoString → Option GoString)
    (fetch : GoString → Except GoError GoString) (target : TomlTable)
    (h : env (str "PROJECT_TOML") = some [])
    (hu : unsetEnv (str "PROJECT_TOML") = none) :
    Load env fetch target = (.error .errProjectTomlNotSet, []) ∧
    Load env fetch target = Load unsetEnv fetch target := by
  have h1 : Load env fetch target = (.error .errProjectTomlNotSet, []) := by
    simp [Load, osGetenv, h]
  have h2 : Load unsetEnv fetch target = (.error .errProjectTomlNotSet, []) := by
    simp [Load, osGetenv, hu]
  exact ⟨h1, h1.trans h2.symm⟩

/-- Witness for C10 with the variable set to the empty string versus unset. -/
theorem Load_empty_env_like_unset_witness :
    Load (fun n => if n = str "PROJECT_TOML" then some [] else none)
        (fun _ => .ok (str "")) [] = (.error .errProjectTomlNotSet, []) ∧
    Load (fun n => if n = str "PROJECT_TOML" then some [] else none)
        (fun _ => .ok (str "")) [] =
      Load (fun _ => none) (fun _ => .ok (str "")) [] :=
  Load_empty_env_like_unset
    (fun n => if n = str "PROJECT_TOML" then some [] else none)
    (fun _ => none) (fun _ => .ok (str "")) [] (by decide) rfl

/-- C8: for an absolute input path `getCleanPath` always succeeds with the
lexical cleaning of the input, regardless of the working-directory outcome
(which it never consults), even when `..` segments clean to a location
outside any working directory. -/
theorem getCleanPath_absolute_ok (p : GoString) (habs : IsAbs p = true) :
    ∀ wdRes : Except GoString GoString,
      getCleanPath wdRes p = .ok (Clean p) := by
  intro wdRes
  simp [getCleanPath, habs]

/-- Witness for C8 at `/a/../../x`, which cleans to `/x`, outside the
working directory `/home`; both a failing and a successful `Getwd` outcome
are exercised. -/
theorem getCleanPath_absolute_ok_witness :
    IsAbs (str "/a/../../x") = true ∧
    getCleanPath (.error (str "getwd failed")) (str "/a/../../x") =
      .ok (Clean (str "/a/../../x")) ∧
    getCleanPath (.ok (str "/home")) (str "/a/../../x") =
      .ok (Clean (str "/a/../../x")) ∧
    Clean (str "/a/../../x") = str "/x" :=
  ⟨by decide,
    getCleanPath_absolute_ok (str "/a/../../x") (by decide)
      (.error (str "getwd failed")),
    getCleanPath_absolute_ok (str "/a/../../x") (by decide)
      (.ok (str "/home")),
    by decide⟩

/-- Every failure of the modelled TOML decoder is a parser-diagnostic leaf. -/
theorem tomlUnmarshal_error_shape (data : GoString) (target : TomlTable)
    (e : GoError) (h : tomlUnmarshal data target = .error e) :
    ∃ m, e = .tomlError m := by
  unfold tomlUnmarshal at h
  cases hx : tomlLinesAux [] target (splitOnChar '\n' data) with
  | error m => rw [hx] at h; exact ⟨m, by injection h with h2; exact h2.symm⟩
  | ok t => rw [hx] at h; cases h

/-- C6: `LoadInto` classifies a read failure as an I/O-class error (an
operating-system leaf in the chain, no parser leaf) and a malformed payload
as a parse-class error (a parser leaf in the chain, no operating-system
leaf); the two classes never overlap. -/
theorem LoadInto_error_classification (wdRes : Except GoString GoString)
    (readFile : GoString → Except GoString GoString)
    (path : GoString) (target : TomlTable) (cleanPath : GoString)
    (hcp : getCleanPath wdRes path = .ok cleanPath) :
    (∀ m, readFile cleanPath = .error m →
      LoadInto wdRes readFile path target =
        .error (.wrap (str "read config file") (.osError m)) ∧
      hasOsError (.wrap (str "read config file") (.osError m)) = true ∧
      hasTomlError (.wrap (str "read config file") (.osError m)) = false) ∧
    (∀ data e, readFile cleanPath = .ok data →
      unmarshalTOML data target = .error e →
      LoadInto wdRes readFile path target = .error e ∧
      hasTomlError e = true ∧ hasOsError e = false) := by
  constructor
  · intro m hr
    refine ⟨?_, rfl, rfl⟩
    simp [LoadInto, hcp, hr]
  · intro data e hr hu
    refine ⟨?_, ?_⟩
    · simp [LoadInto, hcp, hr, hu]
    · unfold unmarshalTOML at hu
      cases hx : tomlUnmarshal data target with
      | error e0 =>
        obtain ⟨m, hm⟩ := tomlUnmarshal_error_shape data target e0 hx
        rw [hx] at hu
        injection hu with hu2
        subst hm
        subst hu2
        exact ⟨rfl, rfl⟩
      | ok t => rw [hx] at hu; cases hu

/-- Witness for C6: a denied read is I/O-class; a malformed payload is
parse-class. -/
theorem LoadInto_error_classification_witness :
    (LoadInto (.ok (str "/w")) readAlwaysDenied (str "/cfg.toml") [] =
      .error (.wrap (str "read config file")
        (.osError (str "permission denied"))) ∧
      hasOsError (.wrap (str "read config file")
        (.osError (str "permission denied"))) = true ∧
      hasTomlError (.wrap (str "read config file")
        (.osError (str "permission denied"))) = false) ∧
    (LoadInto (.ok (str "/w")) (fun _ => .ok (str "???")) (str "/cfg.toml") [] =
      .error (.wrap (str "parse toml")
        (.tomlError (str "expected key-value pair"))) ∧
      hasTomlError (.wrap (str "parse toml")
        (.tomlError (str "expected key-value pair"))) = true ∧
      hasOsError (.wrap (str "parse toml")
        (.tomlError (str "expected key-value pair"))) = false) :=
  ⟨(LoadInto_error_classification (.ok (str "/w")) readAlwaysDenied
      (str "/cfg.toml") [] (str "/cfg.toml") (by decide)).1
      (str "permission denied") rfl,
    (LoadInto_error_classification (.ok (str "/w")) (fun _ => .ok (str "???"))
      (str "/cfg.toml") [] (str "/cfg.toml") (by decide)).2
      (str "???")
      (.wrap (str "parse toml") (.tomlError (str "expected key-value pair")))
      rfl (by decide)⟩

/-- C7 counterexample: with the marker found at `/a` but an unreadable
marker file, `LoadFromProject` returns the empty string, not the discovered
root `/a`, alongside the error — refuting the claim that the root is
returned even when the load fails. -/
theorem LoadFromProject_drops_root_counterexample :
    FindProjectRoot statMarkerAtA 10 (str "/a/b") =
      some (.ok (str "/a", str "/a/project.toml")) ∧
    LoadFromProject statMarkerAtA (.ok (str "/w")) readAlwaysDenied 10
        (str "/a/b") [] =
      some ([], .error (.wrap (str "load config")
        (.wrap (str "read config file")
          (.osError (str "permission denied"))))) ∧
    ([] : GoString) ≠ str "/a" := by
  refine ⟨by decide, by decide, by decide⟩

/-- C7 (amended): `LoadFromProject` returns the discovered root only when
the subsequent load of the marker file also succeeds; when the load fails it
returns the empty string alongside the wrapped error. -/
theorem LoadFromProject_root_only_on_success
    (stat : GoString → Except GoString Unit)
    (wdRes : Except GoString GoString)
    (readFile : GoString → Except GoString GoString)
    (fuel : Nat) (startDir : GoString) (target : TomlTable)
    (root cfg : GoString)
    (hfind : FindProjectRoot stat fuel startDir = some (.ok (root, cfg))) :
    (∀ t, LoadInto wdRes readFile cfg target = .ok t →
      LoadFromProject stat wdRes readFile fuel startDir target =
        some (root, .ok t)) ∧
    (∀ e, LoadInto wdRes readFile cfg target = .error e →
      LoadFromProject stat wdRes readFile fuel startDir target =
        some ([], .error (.wrap (str "load config") e))) := by
  constructor
  · intro t ht
    simp [LoadFromProject, hfind, ht]
  · intro e he
    simp [LoadFromProject, hfind, he]

/-- Witness for C7's amended claim at the counterexample fixtures. -/
theorem LoadFromProject_root_only_on_success_witness :
    LoadFromProject statMarkerAtA (.ok (str "/w")) readAlwaysDenied 10
        (str "/a/b") [] =
      some ([], .error (.wrap (str "load config")
        (.wrap (str "read config file")
          (.osError (str "permission denied"))))) :=
  (LoadFromProject_root_only_on_success statMarkerAtA (.ok (str "/w"))
      readAlwaysDenied 10 (str "/a/b") [] (str "/a")
      (str "/a/project.toml") (by decide)).2
    (.wrap (str "read config file") (.osError (str "permission denied")))
    (by decide)

/-- C2: when the upward search returns a root it is the first directory of
the visiting chain whose marker exists, and when it fails with the
not-found sentinel every directory of the chain — whose last entry is the
filesystem root, the directory that is its own parent — was checked and
lacked the marker. -/
theorem FindProjectRoot_first_match_exhaustive
    (stat : GoString → Except GoString Unit) (fuel : Nat) (start : GoString) :
    (∀ d c, FindProjectRoot stat fuel start = some (.ok (d, c)) →
      c = Join d ProjectConfigFile ∧ fileExists stat c = true ∧
      ∃ pre suf, upChain fuel start = pre ++ d :: suf ∧
        ∀ d' ∈ pre, fileExists stat (Join d' ProjectConfigFile) = false) ∧
    (∀ e, FindProjectRoot stat fuel start = some (.error e) →
      e = .errProjectConfigNotFound ∧
      (∀ d ∈ upChain fuel start,
        fileExists stat (Join d ProjectConfigFile) = false) ∧
      ∃ last, (upChain fuel start).getLast? = some last ∧ Dir last = last) := by
  induction fuel generalizing start with
  | zero =>
    constructor
    · intro d c h; cases h
    · intro e h; cases h
  | succ fuel ih =>
    by_cases hex : fileExists stat (Join start ProjectConfigFile) = true
    · constructor
      · intro d c h
        simp only [FindProjectRoot, hex, if_true] at h
        injection h with h
        injection h with h
        have hd : start = d := congrArg Prod.fst h
        have hc : Join start ProjectConfigFile = c := congrArg Prod.snd h
        refine ⟨by rw [← hd, ← hc], by rw [← hc]; exact hex,
          [], (if Dir start = start then [] else upChain fuel (Dir start)),
          ?_, by simp⟩
        simp [upChain, ← hd]
      · intro e h
        simp only [FindProjectRoot, hex, if_true] at h
        cases h
    · have hex' : fileExists stat (Join start ProjectConfigFile) = false :=
        eq_false_of_ne_true hex
      by_cases hroot : Dir start = start
      · constructor
        · intro d c h
          simp only [FindProjectRoot, hex', Bool.false_eq_true, if_false,
            hroot, if_true] at h
          cases h
        · intro e h
          simp only [FindProjectRoot, hex', Bool.false_eq_true, if_false,
            hroot, if_true] at h
          injection h with h
          injection h with h
          subst h
          refine ⟨rfl, ?_, start, ?_, hroot⟩
          · intro d hd
            simp [upChain, hroot] at hd
            rw [hd]; exact hex'
          · simp [upChain, hroot]
      · have hstep : FindProjectRoot stat (fuel + 1) start =
            FindProjectRoot stat fuel (Dir start) := by
          simp only [FindProjectRoot, hex', Bool.false_eq_true, if_false,
            hroot, if_false]
        have hchain : upChain (fuel + 1) start =
            start :: upChain fuel (Dir start) := by
          simp [upChain, hroot]
        constructor
        · intro d c h
          rw [hstep] at h
          obtain ⟨hc, hexd, pre, suf, hsplit, hpre⟩ :=
            (ih (Dir start)).1 d c h
          refine ⟨hc, hexd, start :: pre, suf, ?_, ?_⟩
          · rw [hchain, hsplit]; rfl
          · intro d' hd'
            rcases List.mem_cons.mp hd' with h1 | h2
            · rw [h1]; exact hex'
            · exact hpre d' h2
        · intro e h
          rw [hstep] at h
          obtain ⟨he, hall, last, hlast, hfix⟩ := (ih (Dir start)).2 e h
          refine ⟨he, ?_, last, ?_, hfix⟩
          · intro d hd
            rw [hchain] at hd
            rcases List.mem_cons.mp hd with h1 | h2
            · rw [h1]; exact hex'
            · exact hall d h2
          · rw [hchain]
            cases hch : upChain fuel (Dir start) with
            | nil => rw [hch] at hlast; cases hlast
            | cons b bs =>
              rw [hch] at hlast
              rw [List.getLast?_cons_cons]
              exact hlast

/-- Witness for C2: the marker sits at `/a`; starting from `/a/b/c` the
search returns `/a` with the earlier chain entries checked and markerless;
with no marker anywhere the whole chain down to `/` is checked. -/
theorem FindProjectRoot_first_match_exhaustive_witness :
    (str "/a/project.toml" = Join (str "/a") ProjectConfigFile ∧
      fileExists statMarkerAtA (str "/a/project.toml") = true ∧
      ∃ pre suf, upChain 10 (str "/a/b/c") = pre ++ str "/a" :: suf ∧
        ∀ d' ∈ pre,
          fileExists statMarkerAtA (Join d' ProjectConfigFile) = false) ∧
    ((GoError.errProjectConfigNotFound = GoError.errProjectConfigNotFound) ∧
      (∀ d ∈ upChain 10 (str "/x/y"),
        fileExists (fun _ => .error (str "no")) (Join d ProjectConfigFile)
          = false) ∧
      ∃ last, (upChain 10 (str "/x/y")).getLast? = some last ∧
        Dir last = last) :=
  ⟨(FindProjectRoot_first_match_exhaustive statMarkerAtA 10
      (str "/a/b/c")).1 (str "/a") (str "/a/project.toml") (by decide),
    (FindProjectRoot_first_match_exhaustive (fun _ => .error (str "no"))
      10 (str "/x/y")).2 GoError.errProjectConfigNotFound (by decide)⟩

/-- C9: the upward search judges the marker solely by whether stat
succeeds — two stat behaviours agreeing on success agree on the whole
search — and at a directory where stat fails for any reason (permission
included) the search continues to the parent rather than surfacing that
error. -/
theorem FindProjectRoot_stat_success_only
    (stat₁ stat₂ : GoString → Except GoString Unit)
    (hagree : ∀ p, fileExists stat₁ p = fileExists stat₂ p) :
    (∀ fuel start,
      FindProjectRoot stat₁ fuel start = FindProjectRoot stat₂ fuel start) ∧
    (∀ fuel current e,
      stat₁ (Join current ProjectConfigFile) = .error e →
      Dir current ≠ current →
      FindProjectRoot stat₁ (fuel + 1) current =
        FindProjectRoot stat₁ fuel (Dir current)) := by
  constructor
  · intro fuel
    induction fuel with
    | zero => intro start; rfl
    | succ fuel ih =>
      intro start
      simp only [FindProjectRoot, hagree, ih]
  · intro fuel current e hstat hroot
    have hex : fileExists stat₁ (Join current ProjectConfigFile) = false := by
      simp [fileExists, hstat]
    simp only [FindProjectRoot, hex, Bool.false_eq_true, if_false, hroot,
      if_false]

/-- Witness for C9: a permission-denied stat and a not-found stat with the
same success set yield identical searches, and a permission failure at
`/a/b` makes the search continue to `/a`. -/
theorem FindProjectRoot_stat_success_only_witness :
    (FindProjectRoot
        (fun p => if p = str "/a/project.toml" then .ok ()
          else .error (str "permission denied")) 10 (str "/a/b/c") =
      FindProjectRoot statMarkerAtA 10 (str "/a/b/c")) ∧
    FindProjectRoot
        (fun p => if p = str "/a/project.toml" then .ok ()
          else .error (str "permission denied")) 6 (str "/a/b") =
      FindProjectRoot
        (fun p => if p = str "/a/project.toml" then .ok ()
          else .error (str "permission denied")) 5 (str "/a") := by
  have h := FindProjectRoot_stat_success_only
    (fun p => if p = str "/a/project.toml" then .ok ()
      else .error (str "permission denied")) statMarkerAtA
    (by
      intro p
      by_cases hp : p = str "/a/project.toml" <;>
        simp [fileExists, statMarkerAtA, hp])
  refine ⟨h.1 10 (str "/a/b/c"), ?_⟩
  have h2 := h.2 5 (str "/a/b") (str "permission denied") (by decide)
    (by decide)
  have hd : Dir (str "/a/b") = str "/a" := by decide
  rw [hd] at h2
  exact h2

end Configurator
